import Mathlib

/-!
Shallow embedding of `pagerank.py`: a link graph over page identifiers,
the transition model, the sampling estimator and the iterative estimator,
with exact rational arithmetic in place of Python floats.
-/

/-- The link graph built by `crawl`: a Python dict mapping each page (key)
to the set of pages it links to.  `keys` is the dict's key set; `links p`
is only meaningful for `p ∈ keys` (a lookup of a non-key raises `KeyError`,
modelled by `Option` in `transition_model`). -/
structure Graph (α : Type) where
  keys : Finset α
  links : α → Finset α

/-- The Link Graph invariants from the spec: every outbound set is a subset
of the key set. -/
def Graph.Valid {α : Type} (G : Graph α) : Prop :=
  ∀ p ∈ G.keys, G.links p ⊆ G.keys

/-- `crawl(directory)`: the input is the directory listing, each entry a
filename together with the list of href targets the regex extracts from its
contents.  Mirrors the source: keep only filenames ending in `".html"`
(the suffix test on the character sequence), set
`pages[filename] = set(links) - {filename}`, then keep only links whose
target is itself a key. -/
def crawl (docs : List (String × List String)) : Graph String :=
  let htmls := docs.filter (fun fc => ".html".data.isSuffixOf fc.1.data)
  let keys : Finset String := (htmls.map Prod.fst).toFinset
  let firstPass : String → Finset String := fun f =>
    match htmls.find? (fun fc => fc.1 = f) with
    | some fc => fc.2.toFinset \ {f}
    | none => ∅
  { keys := keys, links := fun f => (firstPass f).filter (· ∈ keys) }

/-- The probability distribution `transition_model` builds once the lookup
`corpus[page]` has succeeded: start every page at `(1 - d) / n`
(`dict.fromkeys`), then either add `d / len(links)` to each linked page
(the `for link in links` loop, modelled as a fold over the link set) or,
for a dangling page, add `d / n` to every page. -/
def tm_dist {α : Type} [DecidableEq α] [LinearOrder α] (G : Graph α) (page : α)
    (d : ℚ) : α → ℚ :=
  let n : ℚ := G.keys.card
  let base : α → ℚ := fun _ => (1 - d) / n
  let links := G.links page
  if links.card = 0 then
    fun k => base k + d / n
  else
    (links.sort (· ≤ ·)).foldl
      (fun dist link => fun k => if k = link then dist k + d / links.card else dist k)
      base

/-- `transition_model(corpus, page, damping_factor)`.  The subscript
`corpus[page]` raises `KeyError` when `page` is not a key, modelled as
`none`; otherwise the distribution is returned.  No check of any kind is
performed on `damping_factor`. -/
def transition_model {α : Type} [DecidableEq α] [LinearOrder α] (G : Graph α)
    (page : α) (d : ℚ) : Option (α → ℚ) :=
  if page ∈ G.keys then some (tm_dist G page d) else none

/-- One step of Python's `random.choices` with an already-scaled target
`t`: walk the item list accumulating weights, return the first item whose
weight bucket contains the target.  The last item seen is kept as the
fallback for an out-of-range target (unreachable for `u ∈ [0,1)` and
positive total weight, where the source would raise). -/
def choice_aux {α : Type} : List α → (α → ℚ) → ℚ → α → α
  | [], _, _, fallback => fallback
  | x :: xs, w, t, _ => if t < w x then x else choice_aux xs w (t - w x) x

/-- `random.choices(items, weights=w, k=1)[0]` as a cumulative-distribution
draw: `u` is the uniform variate in `[0,1)`, scaled by the total weight. -/
def weighted_choice {α : Type} (items : List α) (w : α → ℚ) (u : ℚ) (fallback : α) : α :=
  choice_aux items w (u * (items.map w).sum) fallback

/-- The visit counters accumulated by the sampling loop
`for _ in range(n)`: at each step the current page's counter is
incremented, then the next page is drawn by weighted random choice over
the current page's transition distribution.  `u` is the stream of uniform
variates consumed by the draws, `i` the index of the next variate. -/
def sample_aux {α : Type} [DecidableEq α] [LinearOrder α] (G : Graph α) (d : ℚ)
    (u : ℕ → ℚ) : ℕ → ℕ → α → α → ℕ
  | 0, _, _ => fun _ => 0
  | steps + 1, i, cur =>
    let next := weighted_choice (G.keys.sort (· ≤ ·)) (tm_dist G cur d) (u i) cur
    let rest := sample_aux G d u steps (i + 1) next
    fun p => (if p = cur then 1 else 0) + rest p

/-- `sample_pagerank(corpus, damping_factor, n)`: run the `n`-step walk
from the uniformly chosen `start` page, then divide every counter by `n`.
The random source is made explicit: `start` is the initial
`random.choice` and `u` the uniform stream driving `random.choices`. -/
def sample_pagerank {α : Type} [DecidableEq α] [LinearOrder α] (G : Graph α)
    (d : ℚ) (n : ℕ) (start : α) (u : ℕ → ℚ) : α → ℚ :=
  fun p => (sample_aux G d u n 0 start p : ℚ) / n

/-- The body of the iteration's `for page in pagerank` loop: for each page,
`total` starts at `(1 - d) / n` and every potential linker `q` with
`page in corpus[q]` or `len(corpus[q]) == 0` contributes
`d * rank(q) / link_count`, where `link_count` is `len(corpus[q])`, or `n`
for a dangling `q`.  All reads come from the previous round's vector `r`. -/
def iterate_round {α : Type} [DecidableEq α] (G : Graph α) (d : ℚ) (r : α → ℚ) :
    α → ℚ := fun page =>
  let n : ℚ := G.keys.card
  (1 - d) / n +
    G.keys.sum (fun q =>
      if page ∈ G.links q ∨ (G.links q).card = 0 then
        d * r q / (if (G.links q).card = 0 then n else ((G.links q).card : ℚ))
      else 0)

/-- The convergence test
`all(abs(new_rank[page] - pagerank[page]) < convergence_threshold for page in pagerank)`
with the hard-coded threshold `0.001`. -/
def converged {α : Type} [DecidableEq α] (G : Graph α) (d : ℚ) (r : α → ℚ) : Bool :=
  decide (∀ p ∈ G.keys, |iterate_round G d r p - r p| < 1 / 1000)

/-- The `while True` loop, with explicit fuel standing for the missing
round cap: each pass computes `new_rank` from the previous vector `r`,
breaks (returning the PREVIOUS vector `r`, as the source's `break` fires
before `pagerank = new_rank.copy()`) when converged, and otherwise
continues from `new_rank`. -/
def iterate_aux {α : Type} [DecidableEq α] (G : Graph α) (d : ℚ) :
    ℕ → (α → ℚ) → Option (α → ℚ)
  | 0, _ => none
  | fuel + 1, r =>
    if converged G d r then some r
    else iterate_aux G d fuel (iterate_round G d r)

/-- `iterate_pagerank(corpus, damping_factor)`: start every page at `1/n`
and iterate to convergence. -/
def iterate_pagerank {α : Type} [DecidableEq α] (G : Graph α) (d : ℚ) (fuel : ℕ) :
    Option (α → ℚ) :=
  iterate_aux G d fuel (fun _ => 1 / (G.keys.card : ℚ))

/-- The PageRank recurrence exactly as the spec writes it:
`new_rank(p) = (1-d)/N + d * Σ_{q links to p} rank(q)/outdegree(q)
+ d * Σ_{dangling q} rank(q)/N`.  Stated from the spec's words, to be
compared with `iterate_round`, the translation of the source. -/
def spec_new_rank {α : Type} [DecidableEq α] (G : Graph α) (d : ℚ) (r : α → ℚ)
    (p : α) : ℚ :=
  let n : ℚ := G.keys.card
  (1 - d) / n
    + d * (G.keys.filter (fun q => p ∈ G.links q)).sum
        (fun q => r q / ((G.links q).card : ℚ))
    + d * (G.keys.filter (fun q => (G.links q).card = 0)).sum (fun q => r q / n)

/-- The rank-vector invariant: every page's value lies in `[0,1]` and the
values over the corpus sum to `1`. -/
def RankOK {α : Type} (G : Graph α) (r : α → ℚ) : Prop :=
  (∀ p ∈ G.keys, 0 ≤ r p ∧ r p ≤ 1) ∧ G.keys.sum r = 1


/-! ### Helper lemmas -/

theorem foldl_update_apply {α : Type} [DecidableEq α] (c : ℚ) :
    ∀ (l : List α) (base : α → ℚ), l.Nodup → ∀ k : α,
      (l.foldl (fun dist link => fun x => if x = link then dist x + c else dist x)
        base) k = base k + if k ∈ l then c else 0
  | [], base, _, k => by simp
  | a :: t, base, h, k => by
    simp only [List.foldl_cons]
    rw [foldl_update_apply c t _ (List.Nodup.of_cons h) k]
    by_cases hk : k = a
    · subst hk
      have hkt : k ∉ t := (List.nodup_cons.mp h).1
      simp [hkt]
    · simp [hk]

/-- Pointwise value of the transition distribution, by case on the branch
the source takes. -/
theorem tm_dist_apply {α : Type} [DecidableEq α] [LinearOrder α] (G : Graph α)
    (p : α) (d : ℚ) (k : α) :
    tm_dist G p d k =
      if (G.links p).card = 0 then
        (1 - d) / (G.keys.card : ℚ) + d / (G.keys.card : ℚ)
      else
        (1 - d) / (G.keys.card : ℚ) +
          (if k ∈ G.links p then d / ((G.links p).card : ℚ) else 0) := by
  unfold tm_dist
  by_cases h : (G.links p).card = 0
  · simp [h]
  · simp only [h, if_false]
    rw [foldl_update_apply _ _ _ (Finset.sort_nodup _ _) k]
    simp [Finset.mem_sort]

/-- C1: in the Iterative Estimator, every round computes, for every page
`p`, `new_rank(p) = (1-d)/N + d * Σ_{q links to p} rank(q)/outdegree(q)
+ d * Σ_{dangling q} rank(q)/N`, with every `rank(q)` read taken from the
previous round's full vector `r` (the loop body `iterate_round` is a pure
function of `r`, and `iterate_aux` feeds each round the previous round's
vector wholesale, never a partially updated one). -/
theorem iterate_round_eq_spec_new_rank {α : Type} [DecidableEq α] (G : Graph α)
    (d : ℚ) (r : α → ℚ) (p : α) :
    iterate_round G d r p = spec_new_rank G d r p := by
  simp only [iterate_round, spec_new_rank]
  rw [Finset.sum_filter, Finset.sum_filter, Finset.mul_sum, Finset.mul_sum,
    add_assoc, ← Finset.sum_add_distrib]
  congr 1
  apply Finset.sum_congr rfl
  intro q _
  by_cases hB : (G.links q).card = 0
  · have hA : p ∉ G.links q := by
      rw [Finset.card_eq_zero] at hB
      simp [hB]
    simp [hA, hB, mul_div_assoc]
  · by_cases hA : p ∈ G.links q
    · simp [hA, hB, mul_div_assoc]
    · simp [hA, hB]

/-- C2: for a valid graph with at least one page, a page `p` of the graph
and a damping factor in `(0,1)`, the Transition Model returns the
distribution giving every page `(1-d)/N`, plus `d/L` on each of `p`'s `L`
linked pages when `p` has outbound links (and nothing extra elsewhere),
or plus `d/N` on every page when `p` is dangling. -/
theorem transition_model_distribution_values {α : Type} [DecidableEq α]
    [LinearOrder α] (G : Graph α) (p : α) (d : ℚ) (hG : G.Valid)
    (hN : G.keys.Nonempty) (hp : p ∈ G.keys) (hd0 : 0 < d) (hd1 : d < 1) :
    transition_model G p d = some (tm_dist G p d) ∧
    ∀ k ∈ G.keys,
      tm_dist G p d k =
        (1 - d) / (G.keys.card : ℚ) +
          (if (G.links p).card = 0 then d / (G.keys.card : ℚ)
           else if k ∈ G.links p then d / ((G.links p).card : ℚ) else 0) := by
  refine ⟨by simp [transition_model, hp], fun k _ => ?_⟩
  rw [tm_dist_apply]
  by_cases h : (G.links p).card = 0 <;> simp [h]

/-- C7: for a valid graph, a page `p` of the graph and a damping factor in
`(0,1)`, the Transition Model's values over the corpus sum exactly to `1`,
in both the linked and the dangling branch. -/
theorem transition_model_sums_to_one {α : Type} [DecidableEq α] [LinearOrder α]
    (G : Graph α) (p : α) (d : ℚ) (hG : G.Valid) (hN : G.keys.Nonempty)
    (hp : p ∈ G.keys) (hd0 : 0 < d) (hd1 : d < 1) :
    G.keys.sum (fun k => tm_dist G p d k) = 1 := by
  have hn : 0 < G.keys.card := Finset.card_pos.mpr hN
  have hn0 : (G.keys.card : ℚ) ≠ 0 := Nat.cast_ne_zero.mpr hn.ne'
  by_cases h : (G.links p).card = 0
  · simp only [tm_dist_apply, h, if_true]
    rw [Finset.sum_const, nsmul_eq_mul]
    field_simp
  · simp only [tm_dist_apply, h, if_false]
    rw [Finset.sum_add_distrib, Finset.sum_const, nsmul_eq_mul, ← Finset.sum_filter]
    have hfil : G.keys.filter (· ∈ G.links p) = G.links p := by
      rw [Finset.filter_mem_eq_inter]
      exact Finset.inter_eq_right.mpr (hG p hp)
    rw [hfil, Finset.sum_const, nsmul_eq_mul]
    have hL0 : ((G.links p).card : ℚ) ≠ 0 := Nat.cast_ne_zero.mpr h
    field_simp

/-- C10 (implicit): for a graph with at least one page, a page `p` of the
graph and `0 < d < 1`, every value of the transition distribution is at
least `(1-d)/N`, hence strictly positive, in both branches. -/
theorem transition_model_min_mass_positive {α : Type} [DecidableEq α]
    [LinearOrder α] (G : Graph α) (p : α) (d : ℚ) (hN : G.keys.Nonempty)
    (hp : p ∈ G.keys) (hd0 : 0 < d) (hd1 : d < 1) :
    ∀ k ∈ G.keys,
      (1 - d) / (G.keys.card : ℚ) ≤ tm_dist G p d k ∧ 0 < tm_dist G p d k := by
  intro k _
  have hn : (0 : ℚ) < (G.keys.card : ℚ) := by
    exact_mod_cast Finset.card_pos.mpr hN
  have hbase : 0 < (1 - d) / (G.keys.card : ℚ) := div_pos (by linarith) hn
  rw [tm_dist_apply]
  by_cases h : (G.links p).card = 0
  · have hdn : 0 ≤ d / (G.keys.card : ℚ) := div_nonneg hd0.le hn.le
    simp only [h, if_true]
    constructor <;> linarith
  · have hL : (0 : ℚ) < ((G.links p).card : ℚ) := by
      exact_mod_cast Nat.pos_of_ne_zero h
    have hite : 0 ≤ if k ∈ G.links p then d / ((G.links p).card : ℚ) else 0 := by
      by_cases hk : k ∈ G.links p
      · simp only [hk, if_true]
        exact div_nonneg hd0.le hL.le
      · simp [hk]
    simp only [h, if_false]
    constructor <;> linarith

/-- Summed over all pages, linker `q`'s contribution to one round is
exactly `d * r q`: a dangling page spreads `d * r q / n` over all `n`
pages, a linking page spreads `d * r q / L` over its `L` out-links. -/
theorem iterate_round_col_sum {α : Type} [DecidableEq α] (G : Graph α)
    (hG : G.Valid) (hN : G.keys.Nonempty) (d : ℚ) (r : α → ℚ) (q : α)
    (hq : q ∈ G.keys) :
    G.keys.sum (fun p =>
      if p ∈ G.links q ∨ (G.links q).card = 0 then
        d * r q /
          (if (G.links q).card = 0 then (G.keys.card : ℚ) else ((G.links q).card : ℚ))
      else 0) = d * r q := by
  have hn : 0 < G.keys.card := Finset.card_pos.mpr hN
  have hn0 : ((G.keys.card : ℚ)) ≠ 0 := Nat.cast_ne_zero.mpr hn.ne'
  by_cases hB : (G.links q).card = 0
  · have h1 : G.keys.sum (fun p =>
        if p ∈ G.links q ∨ (G.links q).card = 0 then
          d * r q /
            (if (G.links q).card = 0 then (G.keys.card : ℚ)
             else ((G.links q).card : ℚ))
        else 0) = G.keys.sum (fun _ => d * r q / (G.keys.card : ℚ)) :=
      Finset.sum_congr rfl (fun p _ => by simp [hB])
    rw [h1, Finset.sum_const, nsmul_eq_mul]
    field_simp
  · have hL0 : ((G.links q).card : ℚ) ≠ 0 := Nat.cast_ne_zero.mpr hB
    have h1 : G.keys.sum (fun p =>
        if p ∈ G.links q ∨ (G.links q).card = 0 then
          d * r q /
            (if (G.links q).card = 0 then (G.keys.card : ℚ)
             else ((G.links q).card : ℚ))
        else 0) =
        G.keys.sum (fun p =>
          if p ∈ G.links q then d * r q / ((G.links q).card : ℚ) else 0) :=
      Finset.sum_congr rfl (fun p _ => by simp [hB])
    rw [h1, ← Finset.sum_filter]
    have hfil : G.keys.filter (· ∈ G.links q) = G.links q := by
      rw [Finset.filter_mem_eq_inter]
      exact Finset.inter_eq_right.mpr (hG q hq)
    rw [hfil, Finset.sum_const, nsmul_eq_mul]
    field_simp

/-- One round conserves total probability mass: if the previous vector
sums to `1`, so does the new one. -/
theorem iterate_round_sum_one {α : Type} [DecidableEq α] (G : Graph α)
    (hG : G.Valid) (hN : G.keys.Nonempty) (d : ℚ) (r : α → ℚ)
    (hr : G.keys.sum r = 1) :
    G.keys.sum (fun p => iterate_round G d r p) = 1 := by
  have hn : 0 < G.keys.card := Finset.card_pos.mpr hN
  have hn0 : ((G.keys.card : ℚ)) ≠ 0 := Nat.cast_ne_zero.mpr hn.ne'
  simp only [iterate_round]
  rw [Finset.sum_add_distrib, Finset.sum_const, nsmul_eq_mul, Finset.sum_comm]
  rw [Finset.sum_congr rfl (fun q hq => iterate_round_col_sum G hG hN d r q hq)]
  rw [← Finset.mul_sum, hr, mul_one]
  field_simp

/-- One round keeps the rank vector inside the invariant: values in
`[0,1]` and total mass `1`. -/
theorem iterate_round_preserves {α : Type} [DecidableEq α] (G : Graph α)
    (hG : G.Valid) (hN : G.keys.Nonempty) (d : ℚ) (hd0 : 0 ≤ d) (hd1 : d ≤ 1)
    (r : α → ℚ) (hr : RankOK G r) : RankOK G (iterate_round G d r) := by
  obtain ⟨hbox, hsum⟩ := hr
  have hn : (0 : ℚ) < (G.keys.card : ℚ) := by
    exact_mod_cast Finset.card_pos.mpr hN
  have hn1 : (1 : ℚ) ≤ (G.keys.card : ℚ) := by
    exact_mod_cast Nat.one_le_iff_ne_zero.mpr (Finset.card_pos.mpr hN).ne'
  have hbase0 : 0 ≤ (1 - d) / (G.keys.card : ℚ) := div_nonneg (by linarith) hn.le
  refine ⟨fun p hp => ⟨?_, ?_⟩, iterate_round_sum_one G hG hN d r hsum⟩
  · simp only [iterate_round]
    refine add_nonneg hbase0 (Finset.sum_nonneg fun q hq => ?_)
    by_cases hc : p ∈ G.links q ∨ (G.links q).card = 0
    · rw [if_pos hc]
      have hrq : 0 ≤ r q := (hbox q hq).1
      have hden : (0 : ℚ) <
          (if (G.links q).card = 0 then (G.keys.card : ℚ)
           else ((G.links q).card : ℚ)) := by
        by_cases hB : (G.links q).card = 0
        · simpa [hB] using hn
        · simp only [hB, if_false]
          exact_mod_cast Nat.pos_of_ne_zero hB
      exact div_nonneg (mul_nonneg hd0 hrq) hden.le
    · rw [if_neg hc]
  · have hstep : G.keys.sum (fun q =>
        if p ∈ G.links q ∨ (G.links q).card = 0 then
          d * r q /
            (if (G.links q).card = 0 then (G.keys.card : ℚ)
             else ((G.links q).card : ℚ))
        else 0) ≤ G.keys.sum (fun q => d * r q) := by
      refine Finset.sum_le_sum fun q hq => ?_
      have hrq : 0 ≤ r q := (hbox q hq).1
      have hdr : 0 ≤ d * r q := mul_nonneg hd0 hrq
      by_cases hc : p ∈ G.links q ∨ (G.links q).card = 0
      · rw [if_pos hc]
        have hden1 : (1 : ℚ) ≤
            (if (G.links q).card = 0 then (G.keys.card : ℚ)
             else ((G.links q).card : ℚ)) := by
          by_cases hB : (G.links q).card = 0
          · simpa [hB] using hn1
          · simp only [hB, if_false]
            exact_mod_cast Nat.one_le_iff_ne_zero.mpr hB
        exact div_le_self hdr hden1
      · rw [if_neg hc]
        exact hdr
    have hsum' : G.keys.sum (fun q => d * r q) = d := by
      rw [← Finset.mul_sum, hsum, mul_one]
    have hb : (1 - d) / (G.keys.card : ℚ) ≤ 1 - d :=
      div_le_self (by linarith) hn1
    simp only [iterate_round]
    calc (1 - d) / (G.keys.card : ℚ) +
          G.keys.sum (fun q =>
            if p ∈ G.links q ∨ (G.links q).card = 0 then
              d * r q /
                (if (G.links q).card = 0 then (G.keys.card : ℚ)
                 else ((G.links q).card : ℚ))
            else 0)
        ≤ (1 - d) + d := by
          have := hstep
          rw [hsum'] at this
          linarith
      _ = 1 := by ring

/-- The uniform initial vector `1/n` satisfies the rank invariant. -/
theorem init_rank_ok {α : Type} (G : Graph α) (hN : G.keys.Nonempty) :
    RankOK G (fun _ => 1 / (G.keys.card : ℚ)) := by
  have hn : (0 : ℚ) < (G.keys.card : ℚ) := by
    exact_mod_cast Finset.card_pos.mpr hN
  have hn1 : (1 : ℚ) ≤ (G.keys.card : ℚ) := by
    exact_mod_cast Nat.one_le_iff_ne_zero.mpr (Finset.card_pos.mpr hN).ne'
  refine ⟨fun p _ => ⟨by positivity, ?_⟩, ?_⟩
  · rw [div_le_one hn]
    exact hn1
  · rw [Finset.sum_const, nsmul_eq_mul]
    field_simp

/-- Whatever vector `iterate_aux` returns satisfies the rank invariant,
provided the vector it started from did. -/
theorem iterate_aux_preserves {α : Type} [DecidableEq α] (G : Graph α)
    (hG : G.Valid) (hN : G.keys.Nonempty) (d : ℚ) (hd0 : 0 ≤ d) (hd1 : d ≤ 1) :
    ∀ (fuel : ℕ) (r v : α → ℚ), RankOK G r →
      iterate_aux G d fuel r = some v → RankOK G v
  | 0, r, v, _, h => by simp [iterate_aux] at h
  | fuel + 1, r, v, hr, h => by
    rw [iterate_aux] at h
    by_cases hc : converged G d r
    · rw [if_pos hc] at h
      obtain rfl : r = v := by simpa using h
      exact hr
    · rw [if_neg hc] at h
      exact iterate_aux_preserves G hG hN d hd0 hd1 fuel _ v
        (iterate_round_preserves G hG hN d hd0 hd1 r hr) h

/-- C6: with exact arithmetic, the invariant "every page's value lies in
`[0,1]` and the values sum to `1`" holds for the initial uniform vector,
is preserved by every round of the recurrence, and therefore holds for any
vector the Iterative Estimator returns. -/
theorem iterate_pagerank_rank_invariant {α : Type} [DecidableEq α] (G : Graph α)
    (hG : G.Valid) (hN : G.keys.Nonempty) (d : ℚ) (hd0 : 0 < d) (hd1 : d < 1) :
    RankOK G (fun _ => 1 / (G.keys.card : ℚ)) ∧
    (∀ r, RankOK G r → RankOK G (iterate_round G d r)) ∧
    (∀ (fuel : ℕ) (v : α → ℚ), iterate_pagerank G d fuel = some v → RankOK G v) :=
  ⟨init_rank_ok G hN,
   fun r hr => iterate_round_preserves G hG hN d hd0.le hd1.le r hr,
   fun fuel v h =>
     iterate_aux_preserves G hG hN d hd0.le hd1.le fuel _ v (init_rank_ok G hN) h⟩

/-- `iterate_aux` succeeds exactly by stopping at the first round whose
convergence test passes, and it returns the vector that round was entered
with (the previous round's vector). -/
theorem iterate_aux_first_convergence {α : Type} [DecidableEq α] (G : Graph α)
    (d : ℚ) :
    ∀ (fuel : ℕ) (r v : α → ℚ), iterate_aux G d fuel r = some v →
      ∃ k, k < fuel ∧ v = (iterate_round G d)^[k] r ∧
        converged G d v = true ∧
        ∀ j < k, converged G d ((iterate_round G d)^[j] r) = false
  | 0, r, v, h => by simp [iterate_aux] at h
  | fuel + 1, r, v, h => by
    rw [iterate_aux] at h
    by_cases hc : converged G d r
    · rw [if_pos hc] at h
      obtain rfl : r = v := by simpa using h
      exact ⟨0, Nat.succ_pos _, rfl, hc, fun j hj => absurd hj (Nat.not_lt_zero j)⟩
    · rw [if_neg hc] at h
      obtain ⟨k, hk, hv, hcv, hfirst⟩ :=
        iterate_aux_first_convergence G d fuel (iterate_round G d r) v h
      refine ⟨k + 1, by omega, ?_, hcv, ?_⟩
      · rw [Function.iterate_succ_apply]
        exact hv
      · intro j hj
        cases j with
        | zero => simpa using Bool.of_not_eq_true hc
        | succ j' =>
          rw [Function.iterate_succ_apply]
          exact hfirst j' (by omega)

/-- C3 (amended): the Iterative Estimator stops at the first round in
which every page simultaneously satisfies `|new_rank(p) - rank(p)| < 0.001`
against the previous round's vector, and it then returns the PREVIOUS
round's rank vector (the vector the test was checked against), not the
`new_rank` vector computed in that final round. -/
theorem iterate_pagerank_stops_at_first_converged_round {α : Type}
    [DecidableEq α] (G : Graph α) (d : ℚ) (fuel : ℕ) (v : α → ℚ)
    (h : iterate_pagerank G d fuel = some v) :
    ∃ k, k < fuel ∧
      v = (iterate_round G d)^[k] (fun _ => 1 / (G.keys.card : ℚ)) ∧
      (∀ p ∈ G.keys, |iterate_round G d v p - v p| < 1 / 1000) ∧
      ∀ j < k,
        ¬ ∀ p ∈ G.keys,
            |iterate_round G d ((iterate_round G d)^[j] (fun _ => 1 / (G.keys.card : ℚ))) p -
                (iterate_round G d)^[j] (fun _ => 1 / (G.keys.card : ℚ)) p| <
              1 / 1000 := by
  obtain ⟨k, hk, hv, hcv, hfirst⟩ := iterate_aux_first_convergence G d fuel _ v h
  refine ⟨k, hk, hv, ?_, ?_⟩
  · simpa [converged] using hcv
  · intro j hj
    simpa [converged] using hfirst j hj

/-- The cumulative draw lands on a list element, or on the supplied
fallback. -/
theorem choice_aux_mem_or_fallback {α : Type} :
    ∀ (l : List α) (w : α → ℚ) (t : ℚ) (fb : α),
      choice_aux l w t fb ∈ l ∨ choice_aux l w t fb = fb
  | [], _, _, _ => Or.inr rfl
  | x :: xs, w, t, fb => by
    by_cases h : t < w x
    · simp [choice_aux, h]
    · simp only [choice_aux, h, if_false]
      rcases choice_aux_mem_or_fallback xs w (t - w x) x with h' | h'
      · exact Or.inl (List.mem_cons_of_mem _ h')
      · refine Or.inl ?_
        rw [h']
        exact List.mem_cons_self x xs

/-- A weighted choice over the key list stays among the keys, as long as
the fallback is a key. -/
theorem weighted_choice_mem_keys {α : Type} [DecidableEq α] [LinearOrder α]
    (G : Graph α) (w : α → ℚ) (u : ℚ) (fb : α) (hfb : fb ∈ G.keys) :
    weighted_choice (G.keys.sort (· ≤ ·)) w u fb ∈ G.keys := by
  unfold weighted_choice
  rcases choice_aux_mem_or_fallback (G.keys.sort (· ≤ ·)) w
      (u * ((G.keys.sort (· ≤ ·)).map w).sum) fb with h | h
  · exact (Finset.mem_sort _).mp h
  · rw [h]
    exact hfb

/-- Each step of the walk increments exactly one counter, so the counters
over the corpus sum to the number of steps taken. -/
theorem sample_aux_total {α : Type} [DecidableEq α] [LinearOrder α]
    (G : Graph α) (d : ℚ) (u : ℕ → ℚ) :
    ∀ (steps i : ℕ) (cur : α), cur ∈ G.keys →
      G.keys.sum (sample_aux G d u steps i cur) = steps
  | 0, _, _, _ => by simp [sample_aux]
  | steps + 1, i, cur, hcur => by
    have hnext :
        weighted_choice (G.keys.sort (· ≤ ·)) (tm_dist G cur d) (u i) cur ∈ G.keys :=
      weighted_choice_mem_keys G _ _ _ hcur
    simp only [sample_aux]
    rw [Finset.sum_add_distrib,
      sample_aux_total G d u steps (i + 1) _ hnext,
      Finset.sum_ite_eq' G.keys cur (fun _ => 1)]
    simp [hcur]
    omega

/-- C4: for a graph with at least one page, a start page of the graph and
`n ≥ 1` samples, the walk performs exactly `n` counter increments in
total, every output value is its page's counter divided by `n` (hence a
multiple of `1/n`), and the output values over the corpus sum exactly to
`1`. -/
theorem sample_pagerank_counting_invariant {α : Type} [DecidableEq α]
    [LinearOrder α] (G : Graph α) (d : ℚ) (n : ℕ) (start : α) (u : ℕ → ℚ)
    (hN : G.keys.Nonempty) (hstart : start ∈ G.keys) (hn : 1 ≤ n) :
    G.keys.sum (sample_aux G d u n 0 start) = n ∧
    (∀ p : α, ∃ c : ℕ, sample_pagerank G d n start u p = (c : ℚ) / n) ∧
    G.keys.sum (fun p => sample_pagerank G d n start u p) = 1 := by
  have htotal : G.keys.sum (sample_aux G d u n 0 start) = n :=
    sample_aux_total G d u n 0 start hstart
  have hn0 : ((n : ℚ)) ≠ 0 := Nat.cast_ne_zero.mpr (by omega)
  refine ⟨htotal, fun p => ⟨sample_aux G d u n 0 start p, rfl⟩, ?_⟩
  simp only [sample_pagerank]
  rw [← Finset.sum_div]
  rw [← Nat.cast_sum, htotal]
  field_simp

/-- C9: the Sampling Estimator is deterministic in its random source: two
runs over the same graph, damping factor, sample count, start page and
uniform stream produce identical rank vectors. -/
theorem sample_pagerank_deterministic {α : Type} [DecidableEq α]
    [LinearOrder α] (G G' : Graph α) (d d' : ℚ) (n n' : ℕ) (s s' : α)
    (u u' : ℕ → ℚ) (hG : G = G') (hd : d = d') (hn : n = n') (hs : s = s')
    (hu : u = u') :
    sample_pagerank G d n s u = sample_pagerank G' d' n' s' u' := by
  subst hG hd hn hs hu
  rfl

/-- C8: for every key `k` of the graph built by the corpus loader, the
outbound set of `k` is a subset of the key set, never contains `k`
itself, and a page whose extracted link targets are all itself ends up
dangling (empty outbound set). -/
theorem crawl_graph_invariants (docs : List (String × List String))
    (hnd : (docs.map Prod.fst).Nodup) :
    ∀ k ∈ (crawl docs).keys,
      (crawl docs).links k ⊆ (crawl docs).keys ∧
      k ∉ (crawl docs).links k ∧
      ∀ ls : List String, (k, ls) ∈ docs → (∀ t ∈ ls, t = k) →
        (crawl docs).links k = ∅ := by
  intro k hk
  have hsub : (crawl docs).links k ⊆ (crawl docs).keys := by
    intro x hx
    simp only [crawl] at hx ⊢
    exact (Finset.mem_filter.mp hx).2
  have hself : k ∉ (crawl docs).links k := by
    intro hx
    simp only [crawl] at hx
    have hx1 := (Finset.mem_filter.mp hx).1
    rcases hfind : (docs.filter (fun fc => ".html".data.isSuffixOf fc.1.data)).find?
        (fun fc => fc.1 = k) with _ | fc
    · rw [hfind] at hx1
      simp at hx1
    · rw [hfind] at hx1
      simp at hx1
  refine ⟨hsub, hself, ?_⟩
  intro ls hdoc hloop
  have hkHtml : k ∈ (docs.filter (fun fc => ".html".data.isSuffixOf fc.1.data)).map Prod.fst := by
    have := hk
    simp only [crawl] at this
    exact List.mem_toFinset.mp this
  obtain ⟨fc0, hfc0mem, hfc0fst⟩ := List.mem_map.mp hkHtml
  rcases hfind : (docs.filter (fun fc => ".html".data.isSuffixOf fc.1.data)).find?
      (fun fc => fc.1 = k) with _ | fc1
  · exfalso
    rw [List.find?_eq_none] at hfind
    exact (by simpa [hfc0fst] using hfind fc0 hfc0mem)
  · have hfc1mem := List.mem_of_find?_eq_some hfind
    have hfc1fst : fc1.1 = k := by
      have := List.find?_some hfind
      simpa using this
    have h1 : fc1 ∈ docs := (List.mem_filter.mp hfc1mem).1
    have heq : fc1 = (k, ls) :=
      List.inj_on_of_nodup_map hnd h1 hdoc (by rw [hfc1fst])
    have hsub2 : fc1.2.toFinset \ ({k} : Finset String) = ∅ := by
      rw [heq]
      rw [Finset.sdiff_eq_empty_iff_subset]
      intro t ht
      rw [List.mem_toFinset] at ht
      simp [hloop t ht]
    show (crawl docs).links k = ∅
    simp only [crawl]
    rw [hfind]
    simp [hsub2]

/-- C5 (amended): for EVERY damping factor `d` — in or out of `(0,1)` —
querying the Transition Model with a page that is not a key of the graph
fails fast (the `corpus[page]` lookup raises `KeyError`, modelled as
`none`); and whenever the page is a key, the model silently returns the
distribution computed with `d` exactly as given.  In particular a `d`
outside `(0,1)` is neither rejected nor clamped: the program validates
the damping factor nowhere. -/
theorem transition_model_keyerror_and_damping_used {α : Type} [DecidableEq α]
    [LinearOrder α] (G : Graph α) (p : α) (d : ℚ) :
    (p ∉ G.keys → transition_model G p d = none) ∧
    (p ∈ G.keys → transition_model G p d = some (tm_dist G p d)) := by
  constructor
  · intro hp
    simp [transition_model, hp]
  · intro hp
    simp [transition_model, hp]

/-! ### Concrete corpora for witnesses and counterexamples -/

/-- A two-page corpus where each page links to the other. -/
def GraphAB : Graph Bool :=
  { keys := {true, false}, links := fun p => if p then {false} else {true} }

/-- A two-page corpus with a dangling page: `true` has no out-links and
`false` links to `true`. -/
def GraphDangling : Graph Bool :=
  { keys := {true, false}, links := fun p => if p then ∅ else {true} }

/-- A one-page corpus over `Bool`: only `true` is in the corpus, so
`false` is a page identifier absent from the graph. -/
def GraphSingle : Graph Bool :=
  { keys := {true}, links := fun _ => ∅ }

/-- A three-document directory listing: `a.html` links to `b.html`, to
itself and to a target outside the corpus; `b.html`'s only extracted
target is itself. -/
def sampleDocs : List (String × List String) :=
  [("a.html", ["b.html", "a.html", "x.html"]), ("b.html", ["b.html"])]

section

attribute [local semireducible] Rat.add Rat.mul Rat.inv Rat.sub Rat.ofScientific

/-- Counterexample to C3 as stated: on the dangling two-page corpus with
damping `1/100`, the Iterative Estimator returns the vector
`(201/400, 199/400)` — the previous round's vector — while the `new_rank`
vector computed in the final round differs from it at page `true`
(`iterate_round` applied to the returned vector does not reproduce it).
So the returned vector is NOT the `new_rank` vector of the final round. -/
theorem iterate_pagerank_returns_previous_vector_cex :
    (iterate_pagerank GraphDangling (1 / 100) 5).map
        (fun v => (v true, v false)) = some (201 / 400, 199 / 400) ∧
    (iterate_pagerank GraphDangling (1 / 100) 5).map
        (fun v => decide (v true = iterate_round GraphDangling (1 / 100) v true)) =
      some false := by
  constructor
  · decide
  · decide

/-- Counterexample to C5 as stated: the damping factor `2`, far outside
`(0,1)`, is not rejected — the Transition Model happily returns a
distribution computed with it. -/
theorem transition_model_damping_not_rejected_cex :
    (transition_model GraphDangling true 2).map (fun f => (f true, f false)) =
      some (1 / 2, 1 / 2) := by
  decide

end

section

attribute [local semireducible] Rat.add Rat.mul Rat.inv Rat.sub Rat.ofScientific

/-- Witness for C2 on the two-page mutually linked corpus at `d = 0.85`. -/
theorem transition_model_distribution_values_witness :
    transition_model GraphAB true (17 / 20) = some (tm_dist GraphAB true (17 / 20)) ∧
    ∀ k ∈ GraphAB.keys,
      tm_dist GraphAB true (17 / 20) k =
        (1 - 17 / 20) / (GraphAB.keys.card : ℚ) +
          (if (GraphAB.links true).card = 0 then (17 / 20 : ℚ) / (GraphAB.keys.card : ℚ)
           else if k ∈ GraphAB.links true then
             (17 / 20 : ℚ) / ((GraphAB.links true).card : ℚ)
           else 0) :=
  transition_model_distribution_values GraphAB true (17 / 20)
    (by unfold Graph.Valid; decide) (by decide) (by decide)
    (by norm_num) (by norm_num)

/-- Witness for C7 on the two-page mutually linked corpus at `d = 0.85`. -/
theorem transition_model_sums_to_one_witness :
    GraphAB.keys.sum (fun k => tm_dist GraphAB true (17 / 20) k) = 1 :=
  transition_model_sums_to_one GraphAB true (17 / 20)
    (by unfold Graph.Valid; decide) (by decide) (by decide)
    (by norm_num) (by norm_num)

/-- Witness for C10 on the two-page mutually linked corpus at `d = 0.85`,
instantiated at page `false`. -/
theorem transition_model_min_mass_positive_witness :
    (1 - 17 / 20) / (GraphAB.keys.card : ℚ) ≤ tm_dist GraphAB true (17 / 20) false ∧
    0 < tm_dist GraphAB true (17 / 20) false :=
  transition_model_min_mass_positive GraphAB true (17 / 20)
    (by decide) (by decide) (by norm_num) (by norm_num) false (by decide)

/-- Witness for C5 (amended) on the one-page corpus: the non-key page
`false` fails fast at the program's own damping `0.85`, and the key page
`true` gets a distribution computed with the out-of-range damping `2`. -/
theorem transition_model_keyerror_and_damping_used_witness :
    transition_model GraphSingle false (17 / 20) = none ∧
    transition_model GraphSingle true 2 = some (tm_dist GraphSingle true 2) :=
  ⟨(transition_model_keyerror_and_damping_used GraphSingle false (17 / 20)).1
      (by decide),
   (transition_model_keyerror_and_damping_used GraphSingle true 2).2 (by decide)⟩

/-- Witness for C6 on the two-page mutually linked corpus at `d = 0.85`. -/
theorem iterate_pagerank_rank_invariant_witness :
    RankOK GraphAB (fun _ => 1 / (GraphAB.keys.card : ℚ)) ∧
    (∀ r, RankOK GraphAB r → RankOK GraphAB (iterate_round GraphAB (17 / 20) r)) ∧
    (∀ (fuel : ℕ) (v : Bool → ℚ),
      iterate_pagerank GraphAB (17 / 20) fuel = some v → RankOK GraphAB v) :=
  iterate_pagerank_rank_invariant GraphAB (by unfold Graph.Valid; decide)
    (by decide) (17 / 20) (by norm_num) (by norm_num)

/-- Witness for C3 (amended): on the two-page mutually linked corpus the
very first convergence test passes and the initial vector is returned. -/
theorem iterate_pagerank_stops_at_first_converged_round_witness :
    ∃ k, k < 1 ∧
      (fun _ : Bool => 1 / (GraphAB.keys.card : ℚ)) =
        (iterate_round GraphAB (17 / 20))^[k] (fun _ => 1 / (GraphAB.keys.card : ℚ)) ∧
      (∀ p ∈ GraphAB.keys,
        |iterate_round GraphAB (17 / 20)
            (fun _ : Bool => 1 / (GraphAB.keys.card : ℚ)) p -
          (fun _ : Bool => 1 / (GraphAB.keys.card : ℚ)) p| < 1 / 1000) ∧
      ∀ j < k,
        ¬ ∀ p ∈ GraphAB.keys,
            |iterate_round GraphAB (17 / 20)
                ((iterate_round GraphAB (17 / 20))^[j]
                  (fun _ : Bool => 1 / (GraphAB.keys.card : ℚ))) p -
              (iterate_round GraphAB (17 / 20))^[j]
                (fun _ : Bool => 1 / (GraphAB.keys.card : ℚ)) p| < 1 / 1000 :=
  iterate_pagerank_stops_at_first_converged_round GraphAB (17 / 20) 1
    (fun _ : Bool => 1 / (GraphAB.keys.card : ℚ)) rfl

/-- Witness for C4: two samples on the two-page mutually linked corpus. -/
theorem sample_pagerank_counting_invariant_witness :
    GraphAB.keys.sum (sample_aux GraphAB (17 / 20) (fun _ => 1 / 3) 2 0 true) = 2 ∧
    (∀ p : Bool, ∃ c : ℕ,
      sample_pagerank GraphAB (17 / 20) 2 true (fun _ => 1 / 3) p =
        (c : ℚ) / ((2 : ℕ) : ℚ)) ∧
    GraphAB.keys.sum
      (fun p => sample_pagerank GraphAB (17 / 20) 2 true (fun _ => 1 / 3) p) = 1 :=
  sample_pagerank_counting_invariant GraphAB (17 / 20) 2 true (fun _ => 1 / 3)
    (by decide) (by decide) (by omega)

/-- Witness for C9 at a fixed random-source state. -/
theorem sample_pagerank_deterministic_witness :
    sample_pagerank GraphAB (17 / 20) 2 true (fun _ => 1 / 3) =
      sample_pagerank GraphAB (17 / 20) 2 true (fun _ => 1 / 3) :=
  sample_pagerank_deterministic GraphAB GraphAB (17 / 20) (17 / 20) 2 2 true true
    (fun _ => 1 / 3) (fun _ => 1 / 3) rfl rfl rfl rfl rfl

/-- Witness for C8 on the three-target sample directory, instantiated at
the self-linking page `b.html`. -/
theorem crawl_graph_invariants_witness :
    (crawl sampleDocs).links "b.html" ⊆ (crawl sampleDocs).keys ∧
    "b.html" ∉ (crawl sampleDocs).links "b.html" ∧
    ∀ ls : List String, ("b.html", ls) ∈ sampleDocs → (∀ t ∈ ls, t = "b.html") →
      (crawl sampleDocs).links "b.html" = ∅ :=
  crawl_graph_invariants sampleDocs (by decide) "b.html" (by decide)

end
